import Mathlib

/-!
# OAuth loader of the janus gateway (`pkg/loader/oauth_loader.go`)

A shallow embedding of `OAuthLoader`: `LoadDefinitions`, `RegisterOAuthServers`,
`getOAuthServers`, `getManager` and `registerRoutes`.

Modelling decisions, all read off the source file:

* A `*proxy.Definition` is `Option Nat`: `none` is the nil pointer, `some a` the
  address `a`.  Two slots alias exactly when they hold the same address.
* The collaborators the loader calls but does not define (`Definition.Validate`,
  `limiter.NewRateFromFormatted`, `oauth.ParseType`, `ManagerFactory.Build`,
  `Repository.FindAll`) are parameters, each returning a Go `(value, error)` pair
  as a product with an `Option Error`.
* Handlers are functions in Go; a handler is represented by the constructor call
  that produced it (`Middleware`), an `InChain` by the list of its handlers.
* `register.Add` appends to the list of routes of the `World`; logrus calls append
  to its log.  `log.Panic` makes the enclosing call end in `Except.error`.
* A Go map is an association list with pairwise distinct keys; a composite
  literal stores its elements in source order, a later element with an equal key
  replacing the value of the earlier one.  The order in which `range` visits the
  entries is unspecified in Go: it is the parameter `RangeOrder`.
* The elements of the slices handed around (`[]*oauth.OAuth`, `[]*oauth.Spec`) are
  taken to be non-nil pointers and are represented by their pointees.
-/

namespace Janus

/-! ## Data model -/

/-- A Go `error` value that is not nil. -/
abbrev Error := String

/-- A `*proxy.Definition`: `none` is nil, `some a` points to the definition at address `a`. -/
abbrev DefPtr := Option Nat

/-- The value of `oauth.TokenStrategy.Settings`. -/
abbrev Settings := List (String × String)

/-- The strategy kind `oauth.ParseType` returns. -/
abbrev ManagerType := Nat

/-- A non-nil `oauth.Manager`, identified by a handle. -/
abbrev Manager := Nat

/-- The fields of `oauthServer.CorsMeta` the loader reads. -/
structure CorsMeta where
  domains : List String
  methods : List String
  requestHeaders : List String
  exposedHeaders : List String
deriving DecidableEq, Repr

/-- The field of `oauthServer.RateLimit` the loader reads. -/
structure RateLimitMeta where
  limit : String
deriving DecidableEq, Repr

/-- The fields of `oauthServer.TokenStrategy` the loader reads. -/
structure TokenStrategy where
  name : String
  settings : Settings
deriving DecidableEq, Repr

/-- The four slots of `oauthServer.Endpoints`. -/
structure Endpoints where
  authorize : DefPtr
  token : DefPtr
  info : DefPtr
  revoke : DefPtr
deriving DecidableEq, Repr

/-- The two slots of `oauthServer.ClientEndpoints`. -/
structure ClientEndpoints where
  create : DefPtr
  remove : DefPtr
deriving DecidableEq, Repr

/-- The configuration `oauth.OAuth` of one server, as far as the loader reads it. -/
structure OAuth where
  name : String
  corsMeta : CorsMeta
  rateLimit : RateLimitMeta
  tokenStrategy : TokenStrategy
  endpoints : Endpoints
  clientEndpoints : ClientEndpoints
deriving DecidableEq, Repr

/-- The `oauth.Spec`: the embedded configuration and the `Manager` interface value
(`none` is the nil interface). -/
structure Spec where
  oauth : OAuth
  manager : Option Manager
deriving DecidableEq, Repr

/-- The value of `cors.Options` the loader passes to `cors.New`. -/
structure CorsOptions where
  allowedOrigins : List String
  allowedMethods : List String
  allowedHeaders : List String
  exposedHeaders : List String
  allowCredentials : Bool
deriving DecidableEq, Repr

/-- The value of `limiter.Rate`. -/
structure Rate where
  formatted : String
  period : Nat
  limit : Nat
deriving DecidableEq, Repr

/-- A handler `func(http.Handler) http.Handler`, represented by the call that built it:
`cors.New(o).Handler`, `limiter.NewHTTPMiddleware(limiter.NewLimiter(store, r)).Handler`,
`oauth.NewSecretMiddleware(s).Handler`. -/
inductive Middleware where
  | cors (o : CorsOptions)
  | rateLimit (r : Rate)
  | secret (s : Spec)
deriving DecidableEq, Repr

/-- The kind of a handler, forgetting what it was built from. -/
inductive MiddlewareKind where
  | cors
  | rateLimit
  | secret
deriving DecidableEq, Repr

/-- The kind of a handler. -/
def Middleware.kind : Middleware → MiddlewareKind
  | .cors _ => .cors
  | .rateLimit _ => .rateLimit
  | .secret _ => .secret

/-- The value of `proxy.InChain`: the handlers, first to last. -/
abbrev InChain := List Middleware

/-- Modelled from the spec: `proxy.NewInChain` is not in the source file; a middleware chain
is "an ordered, immutable list of handler-wrapping functions", so the variadic constructor
keeps its arguments in the order given. -/
def NewInChain (handlers : List Middleware) : InChain := handlers

/-- The kinds of the handlers of a chain, in order. -/
def InChain.shape (c : InChain) : List MiddlewareKind := c.map Middleware.kind

/-- The route `proxy.NewRouteWithInOut(endpoint, inbound, outbound)` builds, from a
non-nil endpoint. -/
structure Route where
  endpoint : Nat
  inbound : InChain
  outbound : Option InChain
deriving DecidableEq, Repr

/-- The route built from its three arguments. -/
def NewRouteWithInOut (endpoint : Nat) (inbound : InChain) (outbound : Option InChain) : Route :=
  ⟨endpoint, inbound, outbound⟩

/-- The logrus severities the loader uses. -/
inductive Level where
  | debug
  | error
  | panic
deriving DecidableEq, Repr

/-- One logrus call: severity, message and the error attached by `WithError`
or passed to `Panic`. -/
structure LogEntry where
  level : Level
  msg : String
  err : Option Error
deriving DecidableEq, Repr

/-- What the loader acts on: the routes given to `register.Add`, oldest first,
and the log lines written. -/
structure World where
  routes : List Route
  logs : List LogEntry
deriving DecidableEq, Repr

/-- The call `m.register.Add(r)`. -/
def World.add (w : World) (r : Route) : World :=
  { w with routes := w.routes ++ [r] }

/-- A logrus call. -/
def World.log (w : World) (level : Level) (msg : String) (err : Option Error) : World :=
  { w with logs := w.logs ++ [⟨level, msg, err⟩] }

/-- The functions the loader calls and does not define. -/
structure Deps where
  /-- The result `(isValid, err)` of `endpoint.Validate()` on the definition at an address. -/
  validate : Nat → Bool × Option Error
  /-- The result of `limiter.NewRateFromFormatted`. -/
  newRateFromFormatted : String → Rate × Option Error
  /-- The result of `oauth.ParseType`. -/
  parseType : String → ManagerType × Option Error
  /-- The result of `oauth.NewManagerFactory(settings).Build(managerType)`. -/
  build : Settings → ManagerType → Option Manager × Option Error

/-- The `oauth.Repository`: what `FindAll()` returns. -/
structure Repository where
  findAll : List OAuth × Option Error

/-! ## Go maps keyed by `*proxy.Definition` -/

/-- One entry of a `map[*proxy.Definition]proxy.InChain`. -/
abbrev Entry := DefPtr × InChain

/-- The assignment `m[k] = v` on a Go map: the value of an existing key is replaced,
a new key gets a new entry. -/
def mapSet {κ ν : Type} [DecidableEq κ] (m : List (κ × ν)) (k : κ) (v : ν) : List (κ × ν) :=
  if k ∈ m.map Prod.fst then
    m.map (fun e => if e.1 = k then (k, v) else e)
  else
    m ++ [(k, v)]

/-- The assignments of the elements of a composite literal, in source order, to the map `m`. -/
def mapFill {κ ν : Type} [DecidableEq κ] (m elems : List (κ × ν)) : List (κ × ν) :=
  elems.foldl (fun m e => mapSet m e.1 e.2) m

/-- The map a composite literal with the given elements evaluates to. -/
def mapLiteral {κ ν : Type} [DecidableEq κ] (elems : List (κ × ν)) : List (κ × ν) :=
  mapFill [] elems

/-- An order in which `range` may visit the entries of a map: any rearrangement
of the entries. -/
structure RangeOrder where
  order : List Entry → List Entry
  perm : ∀ m, (order m).Perm m

/-- The entries in insertion order. -/
def RangeOrder.insertion : RangeOrder := ⟨fun m => m, fun m => List.Perm.refl m⟩

/-- The entries in reverse insertion order. -/
def RangeOrder.reversed : RangeOrder := ⟨List.reverse, fun m => List.reverse_perm m⟩

/-! ## The loader -/

/-- The body of the loop of `registerRoutes` for one map entry. -/
def registerRoute (d : Deps) (w : World) (e : Entry) : World :=
  match e.1 with
  | none => w.log .debug "Endpoint not registered" none
  | some endpoint =>
    let w1 := w.log .debug "Registering OAuth endpoint" none
    match d.validate endpoint with
    | (true, none) =>
      (w1.add (NewRouteWithInOut endpoint e.2 none)).log .debug "Endpoint registered" none
    | (_, err) => w1.log .error "Error when registering endpoint" err

/-- The method `registerRoutes`: every entry of the map, in the order `range` yields them. -/
def registerRoutes (d : Deps) (ro : RangeOrder) (endpoints : List Entry) (w : World) : World :=
  (ro.order endpoints).foldl (registerRoute d) w

/-- The handler `corsHandler` of a server. -/
def corsHandler (oauthServer : Spec) : Middleware :=
  .cors
    { allowedOrigins := oauthServer.oauth.corsMeta.domains
      allowedMethods := oauthServer.oauth.corsMeta.methods
      allowedHeaders := oauthServer.oauth.corsMeta.requestHeaders
      exposedHeaders := oauthServer.oauth.corsMeta.exposedHeaders
      allowCredentials := true }

/-- The handler `rateLimitHandler` of a server: built from the rate the parse returned,
whether or not it also returned an error. -/
def rateLimitHandler (d : Deps) (oauthServer : Spec) : Middleware :=
  .rateLimit (d.newRateFromFormatted oauthServer.oauth.rateLimit.limit).1

/-- The elements of the composite literal `endpoints`, in source order. -/
def endpointsLiteral (d : Deps) (oauthServer : Spec) : List Entry :=
  [ (oauthServer.oauth.endpoints.authorize,
      NewInChain [corsHandler oauthServer, rateLimitHandler d oauthServer]),
    (oauthServer.oauth.endpoints.token,
      NewInChain [.secret oauthServer, corsHandler oauthServer, rateLimitHandler d oauthServer]),
    (oauthServer.oauth.endpoints.info,
      NewInChain [corsHandler oauthServer, rateLimitHandler d oauthServer]),
    (oauthServer.oauth.endpoints.revoke,
      NewInChain [corsHandler oauthServer, rateLimitHandler d oauthServer]),
    (oauthServer.oauth.clientEndpoints.create,
      NewInChain [corsHandler oauthServer, rateLimitHandler d oauthServer]),
    (oauthServer.oauth.clientEndpoints.remove,
      NewInChain [corsHandler oauthServer, rateLimitHandler d oauthServer]) ]

/-- The body of the loop of `RegisterOAuthServers` for one server. -/
def registerOAuthServer (d : Deps) (ro : RangeOrder) (w : World) (oauthServer : Spec) : World :=
  let w1 := w.log .debug "Registering OAuth server" none
  let w2 :=
    match (d.newRateFromFormatted oauthServer.oauth.rateLimit.limit).2 with
    | some err => w1.log .error "Not able to create rate limit" (some err)
    | none => w1
  let endpoints := mapLiteral (endpointsLiteral d oauthServer)
  let w3 := registerRoutes d ro endpoints w2
  w3.log .debug "OAuth server registered" none

/-- The method `RegisterOAuthServers`; it does not use `repo`. -/
def RegisterOAuthServers (d : Deps) (ro : RangeOrder) (oauthServers : List Spec)
    (_repo : Repository) (w : World) : World :=
  let w1 := w.log .debug "Loading OAuth servers configurations" none
  let w2 := oauthServers.foldl (registerOAuthServer d ro) w1
  w2.log .debug "Done loading OAuth servers configurations" none

/-- The method `getManager`. -/
def getManager (d : Deps) (oauthServer : OAuth) : Option Manager × Option Error :=
  match d.parseType oauthServer.tokenStrategy.name with
  | (_, some err) => (none, some err)
  | (managerType, none) => d.build oauthServer.tokenStrategy.settings managerType

/-- The loop of `getOAuthServers`: `specs` is the slice built so far. -/
def getOAuthServersLoop (d : Deps) : List OAuth → List Spec → World → List Spec × World
  | [], specs, w => (specs, w)
  | oauthServer :: rest, specs, w =>
    match getManager d oauthServer with
    | (_, some err) =>
      getOAuthServersLoop d rest specs
        (w.log .error "Oauth definition is not well configured, skipping..." (some err))
    | (manager, none) =>
      getOAuthServersLoop d rest (specs ++ [⟨oauthServer, manager⟩]) w

/-- The method `getOAuthServers`: `Except.error` is the panic of `log.Panic(err)`. -/
def getOAuthServers (d : Deps) (repo : Repository) (w : World) :
    Except (Error × World) (List Spec × World) :=
  match repo.findAll with
  | (_, some err) => .error (err, w.log .panic err (some err))
  | (oauthServers, none) => .ok (getOAuthServersLoop d oauthServers [] w)

/-- The method `LoadDefinitions`: a panic of `getOAuthServers` is not recovered. -/
def LoadDefinitions (d : Deps) (ro : RangeOrder) (repo : Repository) (w : World) :
    Except (Error × World) World :=
  match getOAuthServers d repo w with
  | .error p => .error p
  | .ok (oAuthServers, w1) => .ok (RegisterOAuthServers d ro oAuthServers repo w1)

/-! ## Derived notions used in the statements -/

/-- The route `registerRoutes` hands to `register.Add` for a map entry, if any. -/
def routeOf (d : Deps) (e : Entry) : Option Route :=
  match e.1 with
  | none => none
  | some endpoint =>
    if d.validate endpoint = (true, none) then some (NewRouteWithInOut endpoint e.2 none) else none

/-- Whether a map entry is one `registerRoutes` registers: its endpoint is not nil and
`Validate()` returns `(true, nil)` on it. -/
def registers (d : Deps) (e : Entry) : Bool :=
  match e.1 with
  | none => false
  | some endpoint => decide (d.validate endpoint = (true, none))

/-- The routes `RegisterOAuthServers` adds for one server: the routes of the world after
running it on that server alone, from a world without routes. -/
def serverRoutes (d : Deps) (ro : RangeOrder) (oauthServer : Spec) : List Route :=
  (RegisterOAuthServers d ro [oauthServer] ⟨([], none)⟩ ⟨[], []⟩).routes

/-- The endpoint and the chain shape of a route. -/
def Route.shape (r : Route) : Nat × List MiddlewareKind := (r.endpoint, r.inbound.shape)

/-- What `routeOf` leaves of an entry whose chain has been replaced by its shape. -/
def routeShapeOf (d : Deps) (e : DefPtr × List MiddlewareKind) :
    Option (Nat × List MiddlewareKind) :=
  match e.1 with
  | none => none
  | some endpoint => if d.validate endpoint = (true, none) then some (endpoint, e.2) else none

/-- The collaborators `d` with `limiter.NewRateFromFormatted` replaced by `parse`. -/
def Deps.withRate (d : Deps) (parse : String → Rate × Option Error) : Deps :=
  { d with newRateFromFormatted := parse }

/-- The configurations whose manager resolution returns no error. -/
def resolves (d : Deps) (oauthServer : OAuth) : Bool := (getManager d oauthServer).2.isNone

/-- The specification of `getOAuthServers` in the words of the spec: the configurations whose
manager resolves, in their input order, each paired with the manager resolved for it. -/
def resolvedSpecs (d : Deps) (oauthServers : List OAuth) : List Spec :=
  (oauthServers.filter (resolves d)).map (fun c => ⟨c, (getManager d c).1⟩)

/-- The non-nil pointers among the six slots of a server, in the order of the literal. -/
def presentSlots (oauthServer : Spec) : List Nat :=
  [ oauthServer.oauth.endpoints.authorize, oauthServer.oauth.endpoints.token,
    oauthServer.oauth.endpoints.info, oauthServer.oauth.endpoints.revoke,
    oauthServer.oauth.clientEndpoints.create, oauthServer.oauth.clientEndpoints.remove
  ].filterMap id

/-! ## Concrete inputs -/

/-- A server named "default" with the given slots and strategy name. -/
def mkServer (strategy : String) (e : Endpoints) (c : ClientEndpoints) : OAuth :=
  { name := "default"
    corsMeta := ⟨["*"], [], [], []⟩
    rateLimit := ⟨"5-M"⟩
    tokenStrategy := ⟨strategy, []⟩
    endpoints := e
    clientEndpoints := c }

/-- Collaborators for the examples: every definition validates except the one at address 9,
"5-M" is the only rate that parses, "basic" is the only known strategy. -/
def exampleDeps : Deps where
  validate := fun a => if a = 9 then (false, some "invalid") else (true, none)
  newRateFromFormatted := fun s =>
    if s = "5-M" then (⟨"5-M", 60, 5⟩, none) else (⟨"", 0, 0⟩, some "incorrect format")
  parseType := fun s => if s = "basic" then (1, none) else (0, some "unknown type")
  build := fun _ t => (some t, none)

/-- The world before the loader runs. -/
def emptyWorld : World := ⟨[], []⟩

/-- The entries whose key is not nil. -/
def presentEntries {ν : Type} (l : List (DefPtr × ν)) : List (DefPtr × ν) :=
  l.filter (fun e => decide (e.1 ≠ none))

/-- A server with Authorize at address 1 and Token at address 2, the other slots nil. -/
def exampleSpec : Spec :=
  ⟨mkServer "basic" ⟨some 1, some 2, none, none⟩ ⟨none, none⟩, some 1⟩

/-- A server whose Authorize, Token and Info slots hold the same pointer. -/
def tokenAlias : Spec :=
  ⟨mkServer "basic" ⟨some 1, some 1, some 1, none⟩ ⟨none, none⟩, some 1⟩

/-- A server whose Authorize and Info slots hold the same pointer. -/
def authorizeInfoAlias : Spec :=
  ⟨mkServer "basic" ⟨some 1, none, some 1, none⟩ ⟨none, none⟩, some 1⟩

/-- A store holding the specification scenario with an unknown strategy name. -/
def unknownStrategyStore : Repository :=
  ⟨([mkServer "unknown" ⟨some 1, some 2, none, none⟩ ⟨none, none⟩], none)⟩

/-- A store with a server of unknown strategy between two servers of a known one. -/
def mixedStore : Repository :=
  ⟨([mkServer "basic" ⟨some 1, none, none, none⟩ ⟨none, none⟩,
      mkServer "unknown" ⟨some 2, none, none, none⟩ ⟨none, none⟩,
      mkServer "basic" ⟨some 3, none, none, none⟩ ⟨none, none⟩], none)⟩

/-- A store whose `FindAll()` fails. -/
def failingStore : Repository :=
  ⟨([mkServer "basic" ⟨some 1, some 2, none, none⟩ ⟨none, none⟩], some "store down")⟩

/-- A server whose rate-limit string does not parse. -/
def badRateSpec : Spec :=
  ⟨{ mkServer "basic" ⟨some 1, some 2, none, none⟩ ⟨none, none⟩ with rateLimit := ⟨"bogus"⟩ },
    some 1⟩

/-- A store holding the scenario of the specification: one server with Authorize and Token. -/
def exampleStore : Repository := ⟨([exampleSpec.oauth], none)⟩

/-! ## Proofs -/

theorem registerRoute_routes (d : Deps) (w : World) (e : Entry) :
    (registerRoute d w e).routes = w.routes ++ (routeOf d e).toList := by
  obtain ⟨k, v⟩ := e
  cases k with
  | none => simp [registerRoute, routeOf, World.log]
  | some a =>
    simp only [registerRoute, routeOf]
    rcases h : d.validate a with ⟨b, err⟩
    cases b <;> cases err <;> simp [World.log, World.add]

theorem foldl_registerRoute_routes (d : Deps) (es : List Entry) (w : World) :
    (es.foldl (registerRoute d) w).routes = w.routes ++ es.filterMap (routeOf d) := by
  induction es generalizing w with
  | nil => simp
  | cons e es ih =>
    rw [List.foldl_cons, ih, registerRoute_routes]
    cases h : routeOf d e <;> simp [List.filterMap_cons, h]

theorem registerRoutes_routes (d : Deps) (ro : RangeOrder) (m : List Entry) (w : World) :
    (registerRoutes d ro m w).routes = w.routes ++ (ro.order m).filterMap (routeOf d) :=
  foldl_registerRoute_routes d (ro.order m) w

theorem registerOAuthServer_routes (d : Deps) (ro : RangeOrder) (w : World) (s : Spec) :
    (registerOAuthServer d ro w s).routes =
      w.routes ++ (ro.order (mapLiteral (endpointsLiteral d s))).filterMap (routeOf d) := by
  simp only [registerOAuthServer, World.log, registerRoutes_routes]
  cases (d.newRateFromFormatted s.oauth.rateLimit.limit).2 <;> rfl

theorem foldl_registerOAuthServer_routes (d : Deps) (ro : RangeOrder) (ss : List Spec) (w : World) :
    (ss.foldl (registerOAuthServer d ro) w).routes =
      w.routes ++ ss.flatMap
        (fun s => (ro.order (mapLiteral (endpointsLiteral d s))).filterMap (routeOf d)) := by
  induction ss generalizing w with
  | nil => simp
  | cons s ss ih =>
    rw [List.foldl_cons, ih, registerOAuthServer_routes]
    simp [List.append_assoc]

theorem RegisterOAuthServers_routes (d : Deps) (ro : RangeOrder) (ss : List Spec)
    (repo : Repository) (w : World) :
    (RegisterOAuthServers d ro ss repo w).routes =
      w.routes ++ ss.flatMap
        (fun s => (ro.order (mapLiteral (endpointsLiteral d s))).filterMap (routeOf d)) := by
  simp only [RegisterOAuthServers, World.log, foldl_registerOAuthServer_routes]

theorem serverRoutes_eq (d : Deps) (ro : RangeOrder) (s : Spec) :
    serverRoutes d ro s =
      (ro.order (mapLiteral (endpointsLiteral d s))).filterMap (routeOf d) := by
  simp [serverRoutes, RegisterOAuthServers_routes]

section GoMap

variable {κ ν μ : Type} [DecidableEq κ]

theorem mapFill_nil (m : List (κ × ν)) : mapFill m [] = m := rfl

theorem mapFill_cons (m : List (κ × ν)) (e : κ × ν) (elems : List (κ × ν)) :
    mapFill m (e :: elems) = mapFill (mapSet m e.1 e.2) elems := rfl

theorem mapSet_keys (m : List (κ × ν)) (k : κ) (v : ν) :
    (mapSet m k v).map Prod.fst =
      if k ∈ m.map Prod.fst then m.map Prod.fst else m.map Prod.fst ++ [k] := by
  unfold mapSet
  split
  · rw [List.map_map]
    apply List.map_congr_left
    intro e _
    by_cases h : e.1 = k <;> simp [h]
  · simp

theorem mem_mapSet {m : List (κ × ν)} {k : κ} {v : ν} {e : κ × ν}
    (h : e ∈ mapSet m k v) : e ∈ m ∨ e = (k, v) := by
  unfold mapSet at h
  split at h
  · rw [List.mem_map] at h
    obtain ⟨x, hx, rfl⟩ := h
    by_cases hk : x.1 = k
    · right; simp [hk]
    · left; simpa [hk] using hx
  · simpa using h

theorem mem_mapFill {elems m : List (κ × ν)} {e : κ × ν}
    (h : e ∈ mapFill m elems) : e ∈ m ∨ e ∈ elems := by
  induction elems generalizing m with
  | nil => exact Or.inl h
  | cons x xs ih =>
    rw [mapFill_cons] at h
    rcases ih h with h1 | h1
    · rcases mem_mapSet h1 with h2 | h2
      · exact Or.inl h2
      · right; rw [h2]; exact List.mem_cons_self _ _
    · exact Or.inr (List.mem_cons_of_mem _ h1)

/-- Every entry of the map of a literal is one of the elements of the literal. -/
theorem mem_mapLiteral {elems : List (κ × ν)} {e : κ × ν} (h : e ∈ mapLiteral elems) :
    e ∈ elems := by
  rcases mem_mapFill h with h1 | h1
  · cases h1
  · exact h1

theorem mapSet_keys_nodup {m : List (κ × ν)} (k : κ) (v : ν)
    (h : (m.map Prod.fst).Nodup) : ((mapSet m k v).map Prod.fst).Nodup := by
  rw [mapSet_keys]
  split
  · exact h
  · rename_i hk
    exact List.Nodup.append h (List.nodup_singleton k) (by simpa using hk)

theorem mem_mapSet_keys (m : List (κ × ν)) (k : κ) (v : ν) (x : κ) :
    x ∈ (mapSet m k v).map Prod.fst ↔ x ∈ m.map Prod.fst ∨ x = k := by
  rw [mapSet_keys]
  split
  · rename_i hk
    constructor
    · exact Or.inl
    · rintro (h | rfl)
      · exact h
      · exact hk
  · simp

theorem mapFill_keys_nodup {elems m : List (κ × ν)} (h : (m.map Prod.fst).Nodup) :
    ((mapFill m elems).map Prod.fst).Nodup := by
  induction elems generalizing m with
  | nil => exact h
  | cons x xs ih => exact ih (mapSet_keys_nodup x.1 x.2 h)

theorem mem_mapFill_keys (elems m : List (κ × ν)) (x : κ) :
    x ∈ (mapFill m elems).map Prod.fst ↔ x ∈ m.map Prod.fst ∨ x ∈ elems.map Prod.fst := by
  induction elems generalizing m with
  | nil => simp [mapFill_nil]
  | cons y ys ih =>
    rw [mapFill_cons, ih, mem_mapSet_keys]
    simp only [List.map_cons, List.mem_cons]
    tauto

/-- The keys of a map are pairwise distinct. -/
theorem mapLiteral_keys_nodup (elems : List (κ × ν)) :
    ((mapLiteral elems).map Prod.fst).Nodup :=
  mapFill_keys_nodup List.nodup_nil

/-- The keys of the map of a literal are the keys of its elements. -/
theorem mem_mapLiteral_keys (elems : List (κ × ν)) (x : κ) :
    x ∈ (mapLiteral elems).map Prod.fst ↔ x ∈ elems.map Prod.fst := by
  unfold mapLiteral
  rw [mem_mapFill_keys]
  simp

/-- Applying a function to the values commutes with an assignment. -/
theorem mapSet_map (f : ν → μ) (m : List (κ × ν)) (k : κ) (v : ν) :
    (mapSet m k v).map (Prod.map id f) = mapSet (m.map (Prod.map id f)) k (f v) := by
  have hk : (m.map (Prod.map id f)).map Prod.fst = m.map Prod.fst := by
    rw [List.map_map]; rfl
  unfold mapSet
  rw [hk]
  split
  · rw [List.map_map, List.map_map]
    apply List.map_congr_left
    intro e _
    by_cases h : e.1 = k <;> simp [h, Prod.map]
  · simp [Prod.map]

theorem mapFill_map (f : ν → μ) (m elems : List (κ × ν)) :
    (mapFill m elems).map (Prod.map id f) =
      mapFill (m.map (Prod.map id f)) (elems.map (Prod.map id f)) := by
  induction elems generalizing m with
  | nil => rfl
  | cons x xs ih =>
    rw [mapFill_cons, ih, mapSet_map]
    rfl

/-- Applying a function to the values commutes with building the map of a literal. -/
theorem mapLiteral_map (f : ν → μ) (elems : List (κ × ν)) :
    (mapLiteral elems).map (Prod.map id f) = mapLiteral (elems.map (Prod.map id f)) :=
  mapFill_map f [] elems

/-- An assignment to a key the map does not have adds an entry at the end. -/
theorem mapSet_of_not_mem {m : List (κ × ν)} {k : κ} (v : ν) (h : k ∉ m.map Prod.fst) :
    mapSet m k v = m ++ [(k, v)] := by
  unfold mapSet
  rw [if_neg h]

theorem filter_ne_map_replace (m : List (κ × ν)) (k : κ) (v : ν) :
    (m.map (fun e => if e.1 = k then (k, v) else e)).filter (fun e => decide (e.1 ≠ k)) =
      m.filter (fun e => decide (e.1 ≠ k)) := by
  induction m with
  | nil => rfl
  | cons x xs ih =>
    rw [List.map_cons, List.filter_cons, List.filter_cons, ih]
    by_cases hx : x.1 = k <;> simp [hx]

/-- An assignment to key `k` leaves the entries with other keys as they are. -/
theorem mapSet_filter_ne (m : List (κ × ν)) (k : κ) (v : ν) :
    (mapSet m k v).filter (fun e => decide (e.1 ≠ k)) = m.filter (fun e => decide (e.1 ≠ k)) := by
  unfold mapSet
  split
  · exact filter_ne_map_replace m k v
  · simp [List.filter_append]

end GoMap

/-! ### Entries with a non-nil key -/

theorem presentEntries_append {ν : Type} (l l' : List (DefPtr × ν)) :
    presentEntries (l ++ l') = presentEntries l ++ presentEntries l' :=
  List.filter_append _ _

theorem presentEntries_keys {ν : Type} (l : List (DefPtr × ν)) :
    (presentEntries l).map Prod.fst = ((l.map Prod.fst).filterMap id).map some := by
  induction l with
  | nil => rfl
  | cons x xs ih =>
    obtain ⟨k, v⟩ := x
    cases k with
    | none => simpa [presentEntries, List.filter_cons] using ih
    | some a => simpa [presentEntries, List.filter_cons] using ih

theorem mem_keys_of_mem_presentEntries_keys {ν : Type} {l : List (DefPtr × ν)} {k : DefPtr}
    (hk : k ≠ none) (h : k ∈ l.map Prod.fst) : k ∈ (presentEntries l).map Prod.fst := by
  rw [List.mem_map] at h ⊢
  obtain ⟨e, he, rfl⟩ := h
  exact ⟨e, by simp [presentEntries, he, hk], rfl⟩

/-- When the non-nil keys of the map and of the elements assigned to it are pairwise distinct,
every element with a non-nil key becomes an entry of its own. -/
theorem presentEntries_mapFill {ν : Type} (elems m : List (DefPtr × ν))
    (h : ((presentEntries (m ++ elems)).map Prod.fst).Nodup) :
    presentEntries (mapFill m elems) = presentEntries m ++ presentEntries elems := by
  induction elems generalizing m with
  | nil => simp [mapFill_nil, presentEntries]
  | cons x xs ih =>
    obtain ⟨k, v⟩ := x
    rw [mapFill_cons]
    cases k with
    | none =>
      have hm : presentEntries (mapSet m none v) = presentEntries m := mapSet_filter_ne m none v
      have hx : presentEntries ((none, v) :: xs) = presentEntries xs := by
        simp [presentEntries, List.filter_cons]
      rw [ih, hm, hx]
      rw [presentEntries_append, hm]
      rw [presentEntries_append, hx] at h
      exact h
    | some a =>
      have hnot : (some a : DefPtr) ∉ m.map Prod.fst := by
        intro hmem
        have h1 := mem_keys_of_mem_presentEntries_keys (by simp) hmem
        rw [presentEntries_append, List.map_append] at h
        have hd := (List.nodup_append.1 h).2.2
        exact hd h1 (by simp [presentEntries, List.filter_cons])
      have hset : mapSet m (some a, v).1 (some a, v).2 = m ++ [(some a, v)] :=
        mapSet_of_not_mem v hnot
      rw [hset, ih]
      · simp [presentEntries_append, presentEntries, List.filter_cons]
      · simpa using h

theorem presentEntries_mapLiteral {ν : Type} (elems : List (DefPtr × ν))
    (h : ((elems.map Prod.fst).filterMap id).Nodup) :
    presentEntries (mapLiteral elems) = presentEntries elems := by
  have h1 : ((presentEntries ([] ++ elems)).map Prod.fst).Nodup := by
    rw [List.nil_append, presentEntries_keys]
    exact h.map (Option.some_injective _)
  simpa [presentEntries] using presentEntries_mapFill elems [] h1

/-! ### The routes of a list of entries -/

theorem routeOf_nil (d : Deps) (v : InChain) : routeOf d (none, v) = none := rfl

theorem filterMap_routeOf_presentEntries (d : Deps) (l : List Entry) :
    (presentEntries l).filterMap (routeOf d) = l.filterMap (routeOf d) := by
  induction l with
  | nil => rfl
  | cons x xs ih =>
    obtain ⟨k, v⟩ := x
    cases k with
    | none => simpa [presentEntries, List.filter_cons, List.filterMap_cons, routeOf_nil] using ih
    | some a =>
      have hx : presentEntries ((some a, v) :: xs) = (some a, v) :: presentEntries xs := by
        simp [presentEntries, List.filter_cons]
      rw [hx, List.filterMap_cons, List.filterMap_cons, ih]

theorem mem_filterMap_routeOf (d : Deps) (l : List Entry) (r : Route) :
    r ∈ l.filterMap (routeOf d) ↔
      (some r.endpoint, r.inbound) ∈ l ∧ d.validate r.endpoint = (true, none) ∧
        r.outbound = none := by
  rw [List.mem_filterMap]
  constructor
  · rintro ⟨⟨k, v⟩, he, hr⟩
    cases k with
    | none => simp [routeOf] at hr
    | some a =>
      simp only [routeOf] at hr
      split at hr
      · rename_i hv
        cases hr
        exact ⟨he, hv, rfl⟩
      · cases hr
  · rintro ⟨he, hv, ho⟩
    refine ⟨_, he, ?_⟩
    obtain ⟨a, c, o⟩ := r
    simp only at hv ho
    simp [routeOf, hv, NewRouteWithInOut, ho]

theorem endpoints_filterMap_routeOf (d : Deps) (l : List Entry) :
    (l.filterMap (routeOf d)).map Route.endpoint =
      ((l.map Prod.fst).filterMap id).filter (fun a => decide (d.validate a = (true, none))) := by
  induction l with
  | nil => rfl
  | cons x xs ih =>
    obtain ⟨k, v⟩ := x
    cases k with
    | none => simpa [List.filterMap_cons, routeOf_nil] using ih
    | some a =>
      by_cases hv : d.validate a = (true, none)
      · simp [List.filterMap_cons, routeOf, hv, List.filter_cons, ih, NewRouteWithInOut]
      · simp [List.filterMap_cons, routeOf, hv, List.filter_cons, ih]

theorem length_filterMap_routeOf (d : Deps) (l : List Entry) :
    (l.filterMap (routeOf d)).length = (l.filter (registers d)).length := by
  induction l with
  | nil => rfl
  | cons x xs ih =>
    obtain ⟨k, v⟩ := x
    cases k with
    | none => simpa [List.filterMap_cons, routeOf_nil, List.filter_cons, registers] using ih
    | some a =>
      by_cases hv : d.validate a = (true, none)
      · simp [List.filterMap_cons, routeOf, hv, List.filter_cons, ih, registers]
      · simp [List.filterMap_cons, routeOf, hv, List.filter_cons, ih, registers]

theorem mem_serverRoutes (d : Deps) (ro : RangeOrder) (s : Spec) (r : Route) :
    r ∈ serverRoutes d ro s ↔
      (some r.endpoint, r.inbound) ∈ mapLiteral (endpointsLiteral d s) ∧
        d.validate r.endpoint = (true, none) ∧ r.outbound = none := by
  rw [serverRoutes_eq, mem_filterMap_routeOf, (ro.perm _).mem_iff]

theorem serverRoutes_perm (d : Deps) (ro : RangeOrder) (s : Spec) :
    (serverRoutes d ro s).Perm ((mapLiteral (endpointsLiteral d s)).filterMap (routeOf d)) := by
  rw [serverRoutes_eq]
  exact (ro.perm _).filterMap _

theorem RegisterOAuthServers_routes_eq (d : Deps) (ro : RangeOrder) (ss : List Spec)
    (repo : Repository) (w : World) :
    (RegisterOAuthServers d ro ss repo w).routes = w.routes ++ ss.flatMap (serverRoutes d ro) := by
  rw [RegisterOAuthServers_routes]
  congr 1
  apply List.flatMap_congr
  intro s _
  rw [serverRoutes_eq]

/-- C1: `registerRoutes` appends to the routes given to `register.Add` exactly one route
`NewRouteWithInOut(endpoint, middleware, nil)` for each map entry whose endpoint is not nil
and whose `Validate()` returns `(true, nil)`, and nothing for any other entry (nil endpoint,
or a result other than `(true, nil)`); it always returns, the earlier routes are kept, and
every entry of the map is processed whatever the outcome of the others. -/
theorem registerRoutes_adds_iff_valid (d : Deps) (ro : RangeOrder) (endpoints : List Entry)
    (w : World) :
    ∃ added : List Route,
      (registerRoutes d ro endpoints w).routes = w.routes ++ added ∧
      (∀ r : Route, r ∈ added ↔
        ((some r.endpoint, r.inbound) ∈ endpoints ∧ d.validate r.endpoint = (true, none) ∧
          r.outbound = none)) ∧
      added.length = (endpoints.filter (registers d)).length := by
  refine ⟨(ro.order endpoints).filterMap (routeOf d), registerRoutes_routes d ro endpoints w,
    ?_, ?_⟩
  · intro r
    rw [mem_filterMap_routeOf, (ro.perm endpoints).mem_iff]
  · rw [length_filterMap_routeOf]
    exact ((ro.perm endpoints).filter _).length_eq

/-- C2: on a server whose Authorize, Token and Info slots hold the same valid definition,
whatever the order of `range`, the only route installed is the one for that definition and
its chain is the two handlers CORS and rate-limit: the credential-secret handler is absent
from the route of the Token definition. -/
theorem token_alias_route_without_secret (ro : RangeOrder) :
    tokenAlias.oauth.endpoints.token = some 1 ∧
    serverRoutes exampleDeps ro tokenAlias =
      [⟨1, [corsHandler tokenAlias, rateLimitHandler exampleDeps tokenAlias], none⟩] := by
  refine ⟨rfl, ?_⟩
  have h := serverRoutes_perm exampleDeps ro tokenAlias
  have h2 : (mapLiteral (endpointsLiteral exampleDeps tokenAlias)).filterMap
      (routeOf exampleDeps) =
      [⟨1, [corsHandler tokenAlias, rateLimitHandler exampleDeps tokenAlias], none⟩] := by
    decide
  rw [h2] at h
  exact List.perm_singleton.1 h

/-- C3 (as stated, refuted): the chain built for the Token slot of the example server is
secret, CORS, rate-limit, which is not the order CORS, rate-limit, secret. -/
theorem token_chain_not_cors_first :
    (endpointsLiteral exampleDeps exampleSpec)[1]? =
        some (exampleSpec.oauth.endpoints.token,
          [.secret exampleSpec, corsHandler exampleSpec,
            rateLimitHandler exampleDeps exampleSpec]) ∧
    (endpointsLiteral exampleDeps exampleSpec)[1]? ≠
        some (exampleSpec.oauth.endpoints.token,
          [corsHandler exampleSpec, rateLimitHandler exampleDeps exampleSpec,
            .secret exampleSpec]) := by
  decide

/-- C3 (amended): the chain `RegisterOAuthServers` builds for the Token slot is, first to
last, the credential-secret handler, the CORS handler, the rate-limit handler.  When the
Token pointer is held by no other slot, every route installed for it carries exactly this
chain, and one is installed when the definition validates. -/
theorem token_chain_secret_cors_rateLimit (d : Deps) (ro : RangeOrder) (s : Spec) :
    (endpointsLiteral d s)[1]? =
        some (s.oauth.endpoints.token, [.secret s, corsHandler s, rateLimitHandler d s]) ∧
    ∀ a : Nat, s.oauth.endpoints.token = some a →
      some a ∉ [s.oauth.endpoints.authorize, s.oauth.endpoints.info, s.oauth.endpoints.revoke,
        s.oauth.clientEndpoints.create, s.oauth.clientEndpoints.remove] →
      (∀ r ∈ serverRoutes d ro s, r.endpoint = a →
        r.inbound = [.secret s, corsHandler s, rateLimitHandler d s]) ∧
      (d.validate a = (true, none) →
        (⟨a, [.secret s, corsHandler s, rateLimitHandler d s], none⟩ : Route) ∈
          serverRoutes d ro s) := by
  refine ⟨rfl, ?_⟩
  intro a ha hothers
  have hval : ∀ v, (some a, v) ∈ mapLiteral (endpointsLiteral d s) →
      v = [.secret s, corsHandler s, rateLimitHandler d s] := by
    intro v hv
    have h1 := mem_mapLiteral hv
    simp only [endpointsLiteral, NewInChain, List.mem_cons, Prod.mk.injEq, List.mem_nil_iff,
      or_false] at h1
    simp only [List.mem_cons, List.mem_nil_iff, or_false, not_or] at hothers
    obtain ⟨h1a, h1b, h1c, h1d, h1e⟩ := hothers
    rcases h1 with h | h | h | h | h | h
    · exact absurd h.1 h1a
    · exact h.2
    · exact absurd h.1 h1b
    · exact absurd h.1 h1c
    · exact absurd h.1 h1d
    · exact absurd h.1 h1e
  constructor
  · intro r hr hra
    rw [mem_serverRoutes] at hr
    exact hval _ (hra ▸ hr.1)
  · intro hv
    rw [mem_serverRoutes]
    refine ⟨?_, hv, rfl⟩
    have hk : some a ∈ (mapLiteral (endpointsLiteral d s)).map Prod.fst := by
      rw [mem_mapLiteral_keys]
      simp [endpointsLiteral, ha]
    rw [List.mem_map] at hk
    obtain ⟨⟨k, v⟩, he, hke⟩ := hk
    simp only at hke
    subst hke
    rw [← hval v he]
    exact he

/-- C3 (amended), at the example server: Token at address 2 is held by no other slot and
validates, so its route is installed with the chain secret, CORS, rate-limit. -/
theorem token_chain_secret_cors_rateLimit_witness :
    exampleSpec.oauth.endpoints.token = some 2 ∧
    (⟨2, [.secret exampleSpec, corsHandler exampleSpec,
        rateLimitHandler exampleDeps exampleSpec], none⟩ : Route) ∈
      serverRoutes exampleDeps RangeOrder.reversed exampleSpec :=
  ⟨rfl, ((token_chain_secret_cors_rateLimit exampleDeps RangeOrder.reversed exampleSpec).2 2 rfl
    (by decide)).2 (by decide)⟩

/-- C4: for each of the five slots other than Token, the chain `RegisterOAuthServers` builds
is the two handlers CORS, rate-limit, in that order; and every route installed for a
definition other than the one in the Token slot carries exactly that chain. -/
theorem non_token_chain_cors_rateLimit (d : Deps) (ro : RangeOrder) (s : Spec) :
    (endpointsLiteral d s).eraseIdx 1 =
      [ (s.oauth.endpoints.authorize, [corsHandler s, rateLimitHandler d s]),
        (s.oauth.endpoints.info, [corsHandler s, rateLimitHandler d s]),
        (s.oauth.endpoints.revoke, [corsHandler s, rateLimitHandler d s]),
        (s.oauth.clientEndpoints.create, [corsHandler s, rateLimitHandler d s]),
        (s.oauth.clientEndpoints.remove, [corsHandler s, rateLimitHandler d s]) ] ∧
    ∀ r ∈ serverRoutes d ro s, some r.endpoint ≠ s.oauth.endpoints.token →
      r.inbound = [corsHandler s, rateLimitHandler d s] := by
  refine ⟨rfl, ?_⟩
  intro r hr hne
  rw [mem_serverRoutes] at hr
  have h1 := mem_mapLiteral hr.1
  simp only [endpointsLiteral, NewInChain, List.mem_cons, Prod.mk.injEq, List.mem_nil_iff,
    or_false] at h1
  rcases h1 with h | h | h | h | h | h
  · exact h.2
  · exact absurd h.1 hne
  · exact h.2
  · exact h.2
  · exact h.2
  · exact h.2

/-- C4, at the example server: the route installed for Authorize (address 1, not the Token
pointer) carries the chain CORS, rate-limit. -/
theorem non_token_chain_cors_rateLimit_witness :
    (⟨1, [corsHandler exampleSpec, rateLimitHandler exampleDeps exampleSpec], none⟩ : Route) ∈
      serverRoutes exampleDeps RangeOrder.insertion exampleSpec ∧
    (⟨1, [corsHandler exampleSpec, rateLimitHandler exampleDeps exampleSpec], none⟩ :
      Route).inbound = [corsHandler exampleSpec, rateLimitHandler exampleDeps exampleSpec] :=
  ⟨by decide,
    (non_token_chain_cors_rateLimit exampleDeps RangeOrder.insertion exampleSpec).2
      ⟨1, [corsHandler exampleSpec, rateLimitHandler exampleDeps exampleSpec], none⟩
      (by decide) (by decide)⟩

theorem presentSlots_eq (d : Deps) (s : Spec) :
    presentSlots s = ((endpointsLiteral d s).map Prod.fst).filterMap id := rfl

theorem map_keys_present_perm (d : Deps) (s : Spec) :
    (((mapLiteral (endpointsLiteral d s)).map Prod.fst).filterMap id).Perm
      (presentSlots s).dedup := by
  apply (List.perm_ext_iff_of_nodup _ (List.nodup_dedup _)).2
  · intro a
    rw [List.mem_dedup, presentSlots_eq d s]
    simp only [List.mem_filterMap, id_eq, exists_eq_right]
    exact mem_mapLiteral_keys _ _
  · apply List.Nodup.filterMap _ (mapLiteral_keys_nodup _)
    intro a a' b hb hb'
    simp only [id_eq, Option.mem_def] at hb hb'
    rw [hb, hb']

/-- C5 (as stated, refuted): a server whose Authorize and Info slots hold the same valid
definition has two present-and-valid slots, and `register.Add` is called once. -/
theorem add_calls_fewer_than_valid_slots :
    ((endpointsLiteral exampleDeps authorizeInfoAlias).filter (registers exampleDeps)).length = 2 ∧
    (serverRoutes exampleDeps RangeOrder.insertion authorizeInfoAlias).length = 1 := by
  decide

/-- C5 (amended): for one server, `RegisterOAuthServers` calls `register.Add` exactly once
for each distinct non-nil definition held by the six slots that validates with `(true, nil)`,
so the number of calls is the number of distinct present-and-valid definitions; when the
non-nil slots hold pairwise distinct pointers, the calls are, up to their order, one per
present-and-valid slot with the chain built for that slot; and for a list of servers the
calls are those of each server in turn. -/
theorem add_once_per_distinct_valid_definition (d : Deps) (ro : RangeOrder) (s : Spec) :
    ((serverRoutes d ro s).map Route.endpoint).Perm
      ((presentSlots s).dedup.filter (fun a => decide (d.validate a = (true, none)))) ∧
    ((presentSlots s).Nodup →
      (serverRoutes d ro s).Perm ((endpointsLiteral d s).filterMap (routeOf d))) ∧
    ∀ (ss : List Spec) (repo : Repository) (w : World),
      (RegisterOAuthServers d ro ss repo w).routes = w.routes ++ ss.flatMap (serverRoutes d ro) := by
  refine ⟨?_, ?_, RegisterOAuthServers_routes_eq d ro⟩
  · have hp := (serverRoutes_perm d ro s).map Route.endpoint
    rw [endpoints_filterMap_routeOf] at hp
    exact hp.trans ((map_keys_present_perm d s).filter _)
  · intro hnd
    have hp := serverRoutes_perm d ro s
    rw [← filterMap_routeOf_presentEntries d (mapLiteral _),
      presentEntries_mapLiteral _ (presentSlots_eq d s ▸ hnd),
      filterMap_routeOf_presentEntries] at hp
    exact hp

/-- C5 (amended), at the scenario of the specification: only Authorize and Token are set,
to distinct valid definitions; two routes are added, Authorize with a chain of length 2 and
Token with a chain of length 3. -/
theorem add_once_per_distinct_valid_definition_witness :
    (presentSlots exampleSpec).Nodup ∧
    (serverRoutes exampleDeps RangeOrder.insertion exampleSpec).Perm
      ((endpointsLiteral exampleDeps exampleSpec).filterMap (routeOf exampleDeps)) ∧
    (serverRoutes exampleDeps RangeOrder.insertion exampleSpec).map
      (fun r => (r.endpoint, r.inbound.length)) = [(1, 2), (2, 3)] :=
  ⟨by decide,
    (add_once_per_distinct_valid_definition exampleDeps RangeOrder.insertion exampleSpec).2.1
      (by decide),
    by decide⟩

theorem getOAuthServersLoop_specs (d : Deps) (cfgs : List OAuth) (acc : List Spec) (w : World) :
    (getOAuthServersLoop d cfgs acc w).1 = acc ++ resolvedSpecs d cfgs := by
  induction cfgs generalizing acc w with
  | nil => simp [getOAuthServersLoop, resolvedSpecs]
  | cons c cs ih =>
    rcases h : getManager d c with ⟨mgr, err⟩
    cases err with
    | none =>
      simp only [getOAuthServersLoop, h]
      rw [ih]
      simp [resolvedSpecs, resolves, h, List.filter_cons]
    | some e =>
      simp only [getOAuthServersLoop, h]
      rw [ih]
      simp [resolvedSpecs, resolves, h, List.filter_cons]

theorem getOAuthServersLoop_routes (d : Deps) (cfgs : List OAuth) (acc : List Spec) (w : World) :
    (getOAuthServersLoop d cfgs acc w).2.routes = w.routes := by
  induction cfgs generalizing acc w with
  | nil => rfl
  | cons c cs ih =>
    rcases h : getManager d c with ⟨mgr, err⟩
    cases err with
    | none => simp only [getOAuthServersLoop, h]; rw [ih]
    | some e => simp only [getOAuthServersLoop, h]; rw [ih]; rfl

theorem getOAuthServers_ok (d : Deps) (repo : Repository) (w : World) (cfgs : List OAuth)
    (h : repo.findAll = (cfgs, none)) :
    ∃ w1 : World, getOAuthServers d repo w = .ok (resolvedSpecs d cfgs, w1) ∧
      w1.routes = w.routes := by
  refine ⟨(getOAuthServersLoop d cfgs [] w).2, ?_, getOAuthServersLoop_routes d cfgs [] w⟩
  simp only [getOAuthServers, h]
  congr 1
  apply Prod.ext
  · simpa using getOAuthServersLoop_specs d cfgs [] w
  · rfl

theorem LoadDefinitions_ok (d : Deps) (ro : RangeOrder) (repo : Repository) (w : World)
    (cfgs : List OAuth) (h : repo.findAll = (cfgs, none)) :
    ∃ w1 : World, LoadDefinitions d ro repo w = .ok w1 ∧
      w1.routes = w.routes ++ (resolvedSpecs d cfgs).flatMap (serverRoutes d ro) := by
  obtain ⟨w0, h0, hr⟩ := getOAuthServers_ok d repo w cfgs h
  refine ⟨RegisterOAuthServers d ro (resolvedSpecs d cfgs) repo w0, ?_, ?_⟩
  · simp only [LoadDefinitions, h0]
  · rw [RegisterOAuthServers_routes_eq, hr]

theorem resolvedSpecs_filter (d : Deps) (cfgs : List OAuth) :
    resolvedSpecs d (cfgs.filter (resolves d)) = resolvedSpecs d cfgs := by
  simp [resolvedSpecs, List.filter_filter]

/-- C6: when `FindAll()` returns the configurations `cfgs` and no error, `getOAuthServers`
returns, without touching the routes, exactly the configurations for which `getManager`
returns no error, in their input order, each as a `Spec` whose `OAuth` is the configuration
and whose `Manager` is the manager `getManager` returned for it. -/
theorem getOAuthServers_stable_filter (d : Deps) (repo : Repository) (w : World)
    (cfgs : List OAuth) (h : repo.findAll = (cfgs, none)) :
    ∃ w1 : World,
      getOAuthServers d repo w = .ok (resolvedSpecs d cfgs, w1) ∧
      w1.routes = w.routes ∧
      ((resolvedSpecs d cfgs).map Spec.oauth).Sublist cfgs ∧
      (resolvedSpecs d cfgs).map Spec.oauth =
        cfgs.filter (fun c => decide ((getManager d c).2 = none)) ∧
      ∀ s ∈ resolvedSpecs d cfgs, getManager d s.oauth = (s.manager, none) := by
  obtain ⟨w1, h1, hr⟩ := getOAuthServers_ok d repo w cfgs h
  have hf : (resolvedSpecs d cfgs).map Spec.oauth =
      cfgs.filter (fun c => decide ((getManager d c).2 = none)) := by
    simp only [resolvedSpecs, List.map_map]
    have hid : (Spec.oauth ∘ fun c => (⟨c, (getManager d c).1⟩ : Spec)) = id := rfl
    rw [hid, List.map_id]
    apply List.filter_congr
    intro c _
    cases hc : (getManager d c).2 <;> simp [resolves, hc]
  refine ⟨w1, h1, hr, ?_, hf, ?_⟩
  · rw [hf]
    exact List.filter_sublist _
  · intro s hs
    simp only [resolvedSpecs, List.mem_map, List.mem_filter] at hs
    obtain ⟨c, ⟨_, hc⟩, rfl⟩ := hs
    simp only [resolves, Option.isNone_iff_eq_none] at hc
    exact Prod.ext rfl hc

/-- C6, at a store with an unknown strategy between two known ones: the first and the
third configuration are returned, in that order, each with the manager built for it. -/
theorem getOAuthServers_stable_filter_witness :
    mixedStore.findAll.2 = none ∧
    ∃ w1 : World,
      getOAuthServers exampleDeps mixedStore emptyWorld =
        .ok ([⟨mkServer "basic" ⟨some 1, none, none, none⟩ ⟨none, none⟩, some 1⟩,
              ⟨mkServer "basic" ⟨some 3, none, none, none⟩ ⟨none, none⟩, some 1⟩], w1) :=
  ⟨rfl,
    (getOAuthServers_stable_filter exampleDeps mixedStore emptyWorld mixedStore.findAll.1
      rfl).imp (fun _ hw => hw.1)⟩

theorem resolves_eq_false_iff (d : Deps) (c : OAuth) :
    resolves d c = false ↔
      ((d.parseType c.tokenStrategy.name).2 ≠ none ∨
        (d.build c.tokenStrategy.settings (d.parseType c.tokenStrategy.name).1).2 ≠ none) := by
  unfold resolves getManager
  rcases h : d.parseType c.tokenStrategy.name with ⟨t, err⟩
  cases err with
  | some e => simp
  | none =>
    cases hb : (d.build c.tokenStrategy.settings t).2 <;> simp [hb]

/-- C7: `LoadDefinitions` on a store returning `cfgs` returns normally and adds the routes of
the servers whose manager resolves, server by server in input order, and nothing else: the
same routes as on the store with the failing servers removed.  A server fails to resolve
exactly when `oauth.ParseType` or the factory `Build` returns an error, and such a server
alone adds no route. -/
theorem LoadDefinitions_skips_unresolved (d : Deps) (ro : RangeOrder) (w : World)
    (cfgs : List OAuth) :
    (∃ w1 w2 : World,
      LoadDefinitions d ro ⟨(cfgs, none)⟩ w = .ok w1 ∧
      LoadDefinitions d ro ⟨(cfgs.filter (resolves d), none)⟩ w = .ok w2 ∧
      w1.routes = w2.routes ∧
      w1.routes = w.routes ++ (resolvedSpecs d cfgs).flatMap (serverRoutes d ro)) ∧
    (∀ c : OAuth, resolves d c = false ↔
      ((d.parseType c.tokenStrategy.name).2 ≠ none ∨
        (d.build c.tokenStrategy.settings (d.parseType c.tokenStrategy.name).1).2 ≠ none)) ∧
    (∀ c : OAuth, resolves d c = false →
      ∃ w3 : World, LoadDefinitions d ro ⟨([c], none)⟩ w = .ok w3 ∧ w3.routes = w.routes) := by
  refine ⟨?_, resolves_eq_false_iff d, ?_⟩
  · obtain ⟨w1, h1, hr1⟩ := LoadDefinitions_ok d ro ⟨(cfgs, none)⟩ w cfgs rfl
    obtain ⟨w2, h2, hr2⟩ :=
      LoadDefinitions_ok d ro ⟨(cfgs.filter (resolves d), none)⟩ w _ rfl
    refine ⟨w1, w2, h1, h2, ?_, hr1⟩
    rw [hr1, hr2, resolvedSpecs_filter]
  · intro c hc
    obtain ⟨w3, h3, hr3⟩ := LoadDefinitions_ok d ro ⟨([c], none)⟩ w [c] rfl
    refine ⟨w3, h3, ?_⟩
    rw [hr3]
    simp [resolvedSpecs, List.filter_cons, hc]

/-- C7, at the scenario of the specification with strategy name "unknown": the load returns
and no route is registered. -/
theorem LoadDefinitions_skips_unresolved_witness :
    resolves exampleDeps (mkServer "unknown" ⟨some 1, some 2, none, none⟩ ⟨none, none⟩) = false ∧
    ∃ w3 : World,
      LoadDefinitions exampleDeps RangeOrder.insertion unknownStrategyStore emptyWorld = .ok w3 ∧
      w3.routes = emptyWorld.routes :=
  ⟨by decide,
    (LoadDefinitions_skips_unresolved exampleDeps RangeOrder.insertion emptyWorld []).2.2
      (mkServer "unknown" ⟨some 1, some 2, none, none⟩ ⟨none, none⟩) (by decide)⟩

/-- C8: when `FindAll()` returns an error, `LoadDefinitions` ends in the panic of
`log.Panic(err)` carrying that error; the only effect is the log line of the panic:
`register.Add` is not called and no server is processed. -/
theorem LoadDefinitions_panics_on_store_error (d : Deps) (ro : RangeOrder) (repo : Repository)
    (w : World) (cfgs : List OAuth) (e : Error) (h : repo.findAll = (cfgs, some e)) :
    LoadDefinitions d ro repo w = .error (e, w.log .panic e (some e)) ∧
    (w.log .panic e (some e)).routes = w.routes ∧
    (w.log .panic e (some e)).logs = w.logs ++ [⟨.panic, e, some e⟩] := by
  refine ⟨?_, rfl, rfl⟩
  simp only [LoadDefinitions, getOAuthServers, h]

/-- C8, at a store that fails with "store down" while holding a valid server. -/
theorem LoadDefinitions_panics_on_store_error_witness :
    failingStore.findAll.2 = some "store down" ∧
    LoadDefinitions exampleDeps RangeOrder.insertion failingStore emptyWorld =
      .error ("store down", ⟨[], [⟨.panic, "store down", some "store down"⟩]⟩) :=
  ⟨rfl,
    (LoadDefinitions_panics_on_store_error exampleDeps RangeOrder.insertion failingStore
      emptyWorld _ "store down" rfl).1⟩

theorem shape_filterMap_routeOf (d : Deps) (l : List Entry) :
    (l.filterMap (routeOf d)).map Route.shape =
      (l.map (Prod.map id InChain.shape)).filterMap (routeShapeOf d) := by
  induction l with
  | nil => rfl
  | cons x xs ih =>
    obtain ⟨k, v⟩ := x
    cases k with
    | none => simpa [List.filterMap_cons, routeOf_nil, routeShapeOf] using ih
    | some a =>
      by_cases hv : d.validate a = (true, none)
      · simp [List.filterMap_cons, routeOf, routeShapeOf, hv, ih, NewRouteWithInOut, Route.shape]
      · simp [List.filterMap_cons, routeOf, routeShapeOf, hv, ih]

theorem routeShapeOf_withRate (d : Deps) (parse : String → Rate × Option Error) :
    routeShapeOf (d.withRate parse) = routeShapeOf d := rfl

theorem endpointsLiteral_shape (d d' : Deps) (s : Spec) :
    (endpointsLiteral d s).map (Prod.map id InChain.shape) =
      (endpointsLiteral d' s).map (Prod.map id InChain.shape) := rfl

theorem serverRoutes_shape_perm (d : Deps) (ro : RangeOrder) (s : Spec) :
    ((serverRoutes d ro s).map Route.shape).Perm
      ((mapLiteral ((endpointsLiteral d s).map (Prod.map id InChain.shape))).filterMap
        (routeShapeOf d)) := by
  have hp := (serverRoutes_perm d ro s).map Route.shape
  rw [shape_filterMap_routeOf, mapLiteral_map] at hp
  exact hp

/-- C9: whatever `limiter.NewRateFromFormatted` returns for the server's rate string, an
error included, the endpoints registered for the server and the shapes of their chains are
the same (up to the order of the `register.Add` calls); every chain installed contains the
rate-limit handler built from the rate value the parse returned; and every server of the
list is processed, the routes added being those of each server in turn. -/
theorem rate_parse_failure_keeps_registration (d : Deps) (ro ro' : RangeOrder)
    (parse' : String → Rate × Option Error) (s : Spec) :
    ((serverRoutes d ro s).map Route.shape).Perm
      ((serverRoutes (d.withRate parse') ro' s).map Route.shape) ∧
    (∀ r ∈ serverRoutes d ro s,
      Middleware.rateLimit (d.newRateFromFormatted s.oauth.rateLimit.limit).1 ∈ r.inbound) ∧
    ∀ (ss : List Spec) (repo : Repository) (w : World),
      (RegisterOAuthServers d ro ss repo w).routes = w.routes ++ ss.flatMap (serverRoutes d ro) := by
  refine ⟨?_, ?_, RegisterOAuthServers_routes_eq d ro⟩
  · have h1 := serverRoutes_shape_perm d ro s
    have h2 := serverRoutes_shape_perm (d.withRate parse') ro' s
    rw [routeShapeOf_withRate, endpointsLiteral_shape (d.withRate parse') d s] at h2
    exact h1.trans h2.symm
  · intro r hr
    rw [mem_serverRoutes] at hr
    have h1 := mem_mapLiteral hr.1
    simp only [endpointsLiteral, NewInChain, List.mem_cons, Prod.mk.injEq, List.mem_nil_iff,
      or_false] at h1
    rcases h1 with h | h | h | h | h | h <;> rw [h.2] <;> simp [rateLimitHandler]

/-- C9, at a server whose rate string "bogus" does not parse: the route of its Token
endpoint is installed and its chain holds the rate-limit handler built from the zero rate
the failed parse returned. -/
theorem rate_parse_failure_keeps_registration_witness :
    (exampleDeps.newRateFromFormatted badRateSpec.oauth.rateLimit.limit).2 =
      some "incorrect format" ∧
    (⟨2, [.secret badRateSpec, corsHandler badRateSpec, .rateLimit ⟨"", 0, 0⟩], none⟩ : Route) ∈
      serverRoutes exampleDeps RangeOrder.insertion badRateSpec ∧
    Middleware.rateLimit (exampleDeps.newRateFromFormatted badRateSpec.oauth.rateLimit.limit).1 ∈
      [.secret badRateSpec, corsHandler badRateSpec, .rateLimit ⟨"", 0, 0⟩] :=
  ⟨by decide, by decide,
    (rate_parse_failure_keeps_registration exampleDeps RangeOrder.insertion
      RangeOrder.insertion exampleDeps.newRateFromFormatted badRateSpec).2.1
      ⟨2, [.secret badRateSpec, corsHandler badRateSpec, .rateLimit ⟨"", 0, 0⟩], none⟩
      (by decide)⟩

/-- C10: two runs of `LoadDefinitions` against a store returning the same configurations,
the second from the world the first one left, whatever order `range` takes in each: both
return, each adds the routes of the resolved servers in turn, and for every server the
routes added by the two runs are the same up to the order of the `register.Add` calls. -/
theorem LoadDefinitions_twice_same_registrations (d : Deps) (ro1 ro2 : RangeOrder)
    (repo : Repository) (w : World) (cfgs : List OAuth) (h : repo.findAll = (cfgs, none)) :
    ∃ w1 w2 : World,
      LoadDefinitions d ro1 repo w = .ok w1 ∧
      LoadDefinitions d ro2 repo w1 = .ok w2 ∧
      w1.routes = w.routes ++ (resolvedSpecs d cfgs).flatMap (serverRoutes d ro1) ∧
      w2.routes = w1.routes ++ (resolvedSpecs d cfgs).flatMap (serverRoutes d ro2) ∧
      (∀ s : Spec, (serverRoutes d ro1 s).Perm (serverRoutes d ro2 s)) ∧
      ((resolvedSpecs d cfgs).flatMap (serverRoutes d ro1)).Perm
        ((resolvedSpecs d cfgs).flatMap (serverRoutes d ro2)) := by
  obtain ⟨w1, h1, hr1⟩ := LoadDefinitions_ok d ro1 repo w cfgs h
  obtain ⟨w2, h2, hr2⟩ := LoadDefinitions_ok d ro2 repo w1 cfgs h
  have hs : ∀ s : Spec, (serverRoutes d ro1 s).Perm (serverRoutes d ro2 s) := fun s =>
    (serverRoutes_perm d ro1 s).trans (serverRoutes_perm d ro2 s).symm
  exact ⟨w1, w2, h1, h2, hr1, hr2, hs, List.Perm.flatMap_left _ (fun s _ => hs s)⟩

/-- C10, at the scenario of the specification, the first run visiting the map in insertion
order and the second in reverse order. -/
theorem LoadDefinitions_twice_same_registrations_witness :
    exampleStore.findAll = ([exampleSpec.oauth], none) ∧
    ∃ w1 w2 : World,
      LoadDefinitions exampleDeps RangeOrder.insertion exampleStore emptyWorld = .ok w1 ∧
      LoadDefinitions exampleDeps RangeOrder.reversed exampleStore w1 = .ok w2 ∧
      w1.routes.map Route.shape =
        [(1, [.cors, .rateLimit]), (2, [.secret, .cors, .rateLimit])] ∧
      w2.routes.map Route.shape =
        [(1, [.cors, .rateLimit]), (2, [.secret, .cors, .rateLimit]),
         (2, [.secret, .cors, .rateLimit]), (1, [.cors, .rateLimit])] := by
  refine ⟨rfl, ?_⟩
  obtain ⟨w1, w2, h1, h2, hr1, hr2, _, _⟩ :=
    LoadDefinitions_twice_same_registrations exampleDeps RangeOrder.insertion
      RangeOrder.reversed exampleStore emptyWorld [exampleSpec.oauth] rfl
  refine ⟨w1, w2, h1, h2, ?_, ?_⟩
  · rw [hr1]; decide
  · rw [hr2, hr1]; decide

end Janus
